import Mathlib

/-!
Shallow embedding of the `drawing-stuff` rasterizer (`src/canvas.rs`,
`src/color.rs`) and verification of the specification claims about it.

Conventions of the embedding:
* Rust `u8` channels are `Fin 256`; `usize` is `ℕ`; `isize` is `ℤ`.
* `f32` arithmetic is modelled over `ℚ`.  Every theorem below exercises the
  float code only at small integer values (or at alpha `0`/`255`), where the
  `f32` computations of the source are exact, so the rational model agrees
  with the compiled code on every input appearing in a theorem.  Where the
  source produces a non-finite float (division by zero before a range check)
  the model makes the same range check fail, mirroring IEEE comparisons.
* A Rust function that can panic (`unwrap`) or returns `Option` is modelled
  with `Option`; `none` means "panicked"/"returned None".  Whenever a Rust
  method returns `None` without having mutated `self`, callers that ignore
  the result keep the unchanged canvas, which the primed variants encode.
* Rust `for` loops are modelled by structural recursion on an explicit
  iteration count equal to the number of iterations the Rust loop performs.
-/

set_option linter.unusedVariables false
set_option maxRecDepth 40000

/-- Rust `as u8` cast applied to an `f32` value, over the rational model:
truncation toward zero, saturating to `[0, 255]`. -/
def ratToU8 (q : ℚ) : Fin 256 :=
  if q < 0 then 0
  else if h : ⌊q⌋ ≤ 255 then ⟨⌊q⌋.toNat, by omega⟩
  else 255

/-- `color.rs`: `RGBA` — red, green, blue, alpha, each a `u8`. -/
structure RGBA where
  r : Fin 256
  g : Fin 256
  b : Fin 256
  a : Fin 256
deriving DecidableEq

/-- `color.rs`: `RGB` — red, green, blue, each a `u8`. -/
structure RGB where
  r : Fin 256
  g : Fin 256
  b : Fin 256
deriving DecidableEq

/-- `RGBA::to_rgb`: split an RGBA value into its RGB part and its alpha. -/
def RGBA.to_rgb (c : RGBA) : RGB × Fin 256 :=
  (⟨c.r, c.g, c.b⟩, c.a)

/-- `RGB::lerp`: channel-wise linear interpolation
`((1 - a) * self + a * other) as u8`. -/
def RGB.lerp (self other : RGB) (a : ℚ) : RGB :=
  ⟨ratToU8 ((1 - a) * (self.r.val : ℚ) + a * (other.r.val : ℚ)),
   ratToU8 ((1 - a) * (self.g.val : ℚ) + a * (other.g.val : ℚ)),
   ratToU8 ((1 - a) * (self.b.val : ℚ) + a * (other.b.val : ℚ))⟩

/-- `RGB::add_rgba`: alpha blending via `lerp` with weight `alpha / 255`. -/
def RGB.add_rgba (self : RGB) (other : RGBA) : RGB :=
  self.lerp other.to_rgb.1 ((other.to_rgb.2.val : ℚ) / 255)

/-- The opaque black all canvases start from (`RGB { r: 0, g: 0, b: 0 }`). -/
def black : RGB := ⟨0, 0, 0⟩

/-- `canvas.rs`: a `Canvas` is a width, a height and a row-major pixel
buffer. -/
structure Canvas where
  width : ℕ
  height : ℕ
  buffer : List RGB
deriving DecidableEq

/-- `Canvas::new`: a black canvas with `width * height` pixels. -/
def Canvas.new (width height : ℕ) : Canvas :=
  ⟨width, height, List.replicate (width * height) black⟩

/-- `Canvas::buffer_u32`: pack each pixel as `r << 16 | g << 8 | b`.
All results are below `2 ^ 24`, so the `u32` width imposes no truncation. -/
def Canvas.buffer_u32 (c : Canvas) : List ℕ :=
  c.buffer.map (fun p => p.r.val <<< 16 ||| p.g.val <<< 8 ||| p.b.val)

/-- `Canvas::pixel_inside`: `x >= 0 && x < width && y >= 0 && y < height`. -/
def Canvas.pixel_inside (c : Canvas) (x y : ℤ) : Bool :=
  0 ≤ x && x < (c.width : ℤ) && 0 ≤ y && y < (c.height : ℤ)

/-- `Canvas::get`: `self.buffer.get(y * self.width + x)` — note the code
checks only the flattened index against the buffer length. -/
def Canvas.get (c : Canvas) (x y : ℕ) : Option RGB :=
  c.buffer[y * c.width + x]?

/-- Successful path of `Canvas::set`: overwrite one buffer entry. -/
def Canvas.writePixel (c : Canvas) (idx : ℕ) (v : RGB) : Canvas :=
  { c with buffer := c.buffer.set idx v }

/-- `Canvas::set`: `*self.buffer.get_mut(y * self.width + x)? = color`.
Again only the flattened index is checked. -/
def Canvas.set (c : Canvas) (x y : ℕ) (color : RGB) : Option Canvas :=
  if y * c.width + x < c.buffer.length then
    some (c.writePixel (y * c.width + x) color)
  else none

/-- `Canvas::draw_pixel`: bounds check, read, blend, write.  `none` models
the `None` early returns (in all of which the buffer is untouched). -/
def Canvas.draw_pixel (c : Canvas) (x y : ℤ) (color : RGBA) : Option Canvas :=
  if !(c.pixel_inside x y) then none
  else
    match c.get x.toNat y.toNat with
    | none => none
    | some old => c.set x.toNat y.toNat (old.add_rgba color)

/-- `draw_pixel` as used by the drawing loops, which discard the `Option`:
on any `None` path the Rust method has not mutated the buffer. -/
def Canvas.draw_pixel' (c : Canvas) (x y : ℤ) (color : RGBA) : Canvas :=
  (c.draw_pixel x y color).getD c

/-- Rust `f32::round`: round half away from zero (exact on the rational
model wherever the float value is exactly representable). -/
def roundAway (q : ℚ) : ℤ :=
  if 0 ≤ q then ⌊q + 1/2⌋ else -⌊-q + 1/2⌋

/-- `Canvas::clamp_line_coords`.  `none` models the `unwrap()` panic that
occurs when fewer than two of the four boundary intersections are valid.
The vertical branch clips the low end to `self.width` exactly as the
source does (see the claim about vertical clamping).  In the general
branch, when `m = 0` the source divides by zero producing `±inf`/`NaN`,
which fails the subsequent range comparison; the model's guard on `m ≠ 0`
reproduces that. -/
def Canvas.clamp_line_coords (c : Canvas) (x1 y1 x2 y2 : ℤ) :
    Option (ℤ × ℤ × ℤ × ℤ) :=
  let p1_inside := 0 ≤ x1 ∧ x1 < (c.width : ℤ) ∧ 0 ≤ y1 ∧ y1 < (c.height : ℤ)
  let p2_inside := 0 ≤ x2 ∧ x2 < (c.width : ℤ) ∧ 0 ≤ y2 ∧ y2 < (c.height : ℤ)
  if p1_inside ∧ p2_inside then some (x1, y1, x2, y2)
  else
    let dx := x2 - x1
    let dy := y2 - y1
    if dx = 0 then
      let s_y0 : ℤ × ℤ := (x1, 0)
      let s_yh : ℤ × ℤ := (x1, (c.width : ℤ))
      let q1 := if p1_inside then (x1, y1) else if y1 < 0 then s_y0 else s_yh
      let q2 := if p2_inside then (x2, y2) else if y2 < 0 then s_y0 else s_yh
      some (q1.1, q1.2, q2.1, q2.2)
    else
      let m : ℚ := (dy : ℚ) / (dx : ℚ)
      let cc : ℚ := (y1 : ℚ) - m * (x1 : ℚ)
      let s_x0 : ℚ × ℚ := (0, cc)
      let s_xw : ℚ × ℚ := ((c.width : ℚ), cc + m * (c.width : ℚ))
      let s_y0 : ℚ × ℚ := (-cc / m, 0)
      let s_yh : ℚ × ℚ := (((c.height : ℚ) - cc) / m, (c.height : ℚ))
      let v_x0 := if 0 ≤ s_x0.2 ∧ s_x0.2 < (c.height : ℚ) then some s_x0 else none
      let v_xw := if 0 ≤ s_xw.2 ∧ s_xw.2 < (c.height : ℚ) then some s_xw else none
      let v_y0 := if m ≠ 0 ∧ 0 ≤ s_y0.1 ∧ s_y0.1 < (c.width : ℚ) then some s_y0 else none
      let v_yh := if m ≠ 0 ∧ 0 ≤ s_yh.1 ∧ s_yh.1 < (c.width : ℚ) then some s_yh else none
      match ([v_x0, v_xw, v_y0, v_yh].filterMap id) with
      | pa :: pb :: _ =>
        let qa : ℤ × ℤ := (roundAway pa.1, roundAway pa.2)
        let qb : ℤ × ℤ := (roundAway pb.1, roundAway pb.2)
        let r1 :=
          if p1_inside then (x1, y1)
          else
            let dxa := qa.1 - x1
            let dya := qa.2 - y1
            let dxb := qb.1 - x1
            let dyb := qb.2 - y1
            if dxa * dxa + dya * dya < dxb * dxb + dyb * dyb then qa else qb
        let r2 :=
          if p2_inside then (x2, y2)
          else
            let dxa := qa.1 - x2
            let dya := qa.2 - y2
            let dxb := qb.1 - x2
            let dyb := qb.2 - y2
            if dxa * dxa + dya * dya < dxb * dxb + dyb * dyb then qa else qb
        some (r1.1, r1.2, r2.1, r2.2)
      | _ => none

/-- The vertical branch of `draw_line`:
`for i in 0..(end_y - start_y) { draw_pixel(x1, start_y + i) }`,
with `count` the number of remaining iterations. -/
def vertFillAux (c : Canvas) (x ycur : ℤ) (color : RGBA) : ℕ → Canvas
  | 0 => c
  | k + 1 => vertFillAux (c.draw_pixel' x ycur color) x (ycur + 1) color k

/-- The shallow (`|slope| <= 1`) Bresenham loop of `draw_line`:
iteration `i` updates `p`/`offset` and draws `(start_x + i, start_y + offset)`. -/
def bresXAux (sx sy step a b : ℤ) (color : RGBA) :
    Canvas → ℤ → ℤ → ℕ → ℕ → Canvas
  | c, p, offset, _, 0 => c
  | c, p, offset, i, k + 1 =>
    let po : ℤ × ℤ := if p < 0 then (p + a, offset) else (p + b, offset + step)
    bresXAux sx sy step a b color
      (c.draw_pixel' (sx + (i : ℤ)) (sy + po.2) color) po.1 po.2 (i + 1) k

/-- The steep Bresenham loop of `draw_line` (transpose of `bresXAux`). -/
def bresYAux (sx sy step a b : ℤ) (color : RGBA) :
    Canvas → ℤ → ℤ → ℕ → ℕ → Canvas
  | c, p, offset, _, 0 => c
  | c, p, offset, i, k + 1 =>
    let po : ℤ × ℤ := if p < 0 then (p + a, offset) else (p + b, offset + step)
    bresYAux sx sy step a b color
      (c.draw_pixel' (sx + po.2) (sy + (i : ℤ)) color) po.1 po.2 (i + 1) k

/-- `Canvas::draw_line`.  `none` propagates the clamping panic. -/
def Canvas.draw_line (c : Canvas) (x1 y1 x2 y2 : ℤ) (color : RGBA) :
    Option Canvas :=
  match c.clamp_line_coords x1 y1 x2 y2 with
  | none => none
  | some (x1, y1, x2, y2) =>
    if x1 = x2 then
      let se : ℤ × ℤ := if y1 < y2 then (y1, y2) else (y2, y1)
      some (vertFillAux c x1 se.1 color ((se.2 - se.1).toNat))
    else
      let dx := |x2 - x1|
      let dy := |y2 - y1|
      -- f32 `dy / dx <= 1.0` with `dx ≥ 1` at these magnitudes is `dy ≤ dx`
      if dy ≤ dx then
        match (if x1 < x2 then (x1, y1, x2, y2) else (x2, y2, x1, y1)) with
        | (sx, sy, ex, ey) =>
          let step : ℤ := if sy < ey then 1 else -1
          let a := 2 * dy
          let b := a - 2 * dx
          let p := a - dx
          some (bresXAux sx sy step a b color
            (c.draw_pixel' sx sy color) p 0 1 ((ex - sx).toNat))
      else
        match (if y1 < y2 then (x1, y1, x2, y2) else (x2, y2, x1, y1)) with
        | (sx, sy, ex, ey) =>
          let step : ℤ := if sx < ex then 1 else -1
          let a := 2 * dx
          let b := a - 2 * dy
          let p := a - dy
          some (bresYAux sx sy step a b color
            (c.draw_pixel' sx sy color) p 0 1 ((ey - sy).toNat))

/-- The midpoint walk of `draw_circle_solid`: records the scanline bounds
into `lbuf`/`rbuf` (the source's `left_buff`/`right_buff`).  Index
expressions are kept exactly as written in the source
(`(y + y_offset - (y - r)) as usize` etc.).  `fuel` bounds the `while`
loop; `r + 1` iterations always suffice since `y_offset - x_offset`
strictly increases. -/
def circLoop (x y rI : ℤ) : ℤ → ℤ → ℤ → List ℤ → List ℤ → ℕ →
    List ℤ × List ℤ
  | _, _, _, lbuf, rbuf, 0 => (lbuf, rbuf)
  | e, xo, yo, lbuf, rbuf, fuel + 1 =>
    if yo ≤ xo then
      let rbuf := (rbuf.set (y + yo - (y - rI)).toNat (x + xo)).set
        (y - yo - (y - rI)).toNat (x + xo)
      let lbuf := (lbuf.set (y + yo - (y - rI)).toNat (x - xo)).set
        (y - yo - (y - rI)).toNat (x - xo)
      let rbuf := (rbuf.set (y + xo - (y - rI)).toNat (x + yo)).set
        (y - xo - (y - rI)).toNat (x + yo)
      let lbuf := (lbuf.set (y + xo - (y - rI)).toNat (x - yo)).set
        (y - xo - (y - rI)).toNat (x - yo)
      let e' := e + 2 * yo + 1
      let yo' := yo + 1
      if 0 ≤ e' then circLoop x y rI (e' - (2 * xo - 1)) (xo - 1) yo' lbuf rbuf fuel
      else circLoop x y rI e' xo yo' lbuf rbuf fuel
    else (lbuf, rbuf)

/-- Inner scanline loop `for x in x1..x2 { draw_pixel(x, y, color) }`,
with `count` the number of remaining iterations. -/
def fillRowAux (yrow : ℤ) (color : RGBA) : Canvas → ℤ → ℕ → Canvas
  | c, xcur, 0 => c
  | c, xcur, k + 1 => fillRowAux yrow color (c.draw_pixel' xcur yrow color) (xcur + 1) k

/-- One scanline `for x in x1..x2`: iterates `(x2 - x1)` times (none when
`x2 ≤ x1`). -/
def fillRow (c : Canvas) (yrow x1 x2 : ℤ) (color : RGBA) : Canvas :=
  fillRowAux yrow color c x1 ((x2 - x1).toNat)

/-- The scanline loop shared by `draw_circle_solid` (`xoff = 0`) and
`draw_polygon_solid` (`xoff = start_x`): rows `i, i+1, ...` for `count`
rows, row `i` spanning `[lbuf[i] + xoff, rbuf[i] + xoff)` at
`y = i + yBase`. -/
def fillRowsAux (lbuf rbuf : List ℤ) (xoff yBase : ℤ) (color : RGBA) :
    Canvas → ℕ → ℕ → Canvas
  | c, _, 0 => c
  | c, i, k + 1 =>
    fillRowsAux lbuf rbuf xoff yBase color
      (fillRow c ((i : ℤ) + yBase) (lbuf.getD i 0 + xoff) (rbuf.getD i 0 + xoff) color)
      (i + 1) k

/-- `Canvas::draw_circle_solid`. -/
def Canvas.draw_circle_solid (c : Canvas) (x y : ℤ) (r : ℕ) (color : RGBA) :
    Canvas :=
  if r = 0 then c
  else
    let rI : ℤ := r
    let dy : ℕ := 2 * r
    let lbuf : List ℤ := List.replicate (dy + 1) 0
    let rbuf : List ℤ := List.replicate (dy + 1) 0
    let bufs := circLoop x y rI (-rI) rI 0 lbuf rbuf (r + 1)
    fillRowsAux bufs.1 bufs.2 0 (y - rI) color c 0 dy

/-- Shallow-slope loop of `polygon_buffer_line`: writes `start_x + i` at
row `start_y + offset` only on the right chain or when the row was newly
entered (`new_line`). -/
def pblShallowAux (right : Bool) (sx sy step a b : ℤ) :
    List ℤ → ℤ → ℤ → Bool → ℕ → ℕ → List ℤ
  | buff, p, offset, new_line, _, 0 => buff
  | buff, p, offset, new_line, i, k + 1 =>
    let upd : ℤ × ℤ × Bool :=
      if p < 0 then (p + a, offset, new_line) else (p + b, offset + step, true)
    if right || upd.2.2 then
      pblShallowAux right sx sy step a b
        (buff.set (sy + upd.2.1).toNat (sx + (i : ℤ))) upd.1 upd.2.1 false (i + 1) k
    else
      pblShallowAux right sx sy step a b buff upd.1 upd.2.1 upd.2.2 (i + 1) k

/-- Steep-slope loop of `polygon_buffer_line`: writes `start_x + offset`
at every row `start_y + i`. -/
def pblSteepAux (sx sy step a b : ℤ) : List ℤ → ℤ → ℤ → ℕ → ℕ → List ℤ
  | buff, p, offset, _, 0 => buff
  | buff, p, offset, i, k + 1 =>
    let upd : ℤ × ℤ := if p < 0 then (p + a, offset) else (p + b, offset + step)
    pblSteepAux sx sy step a b
      (buff.set (sy + (i : ℤ)).toNat (sx + upd.2)) upd.1 upd.2 (i + 1) k

/-- `Canvas::polygon_buffer_line`.  The f32 slope test `dy / dx <= 1.0`
is `false` when `dx = 0` (the quotient is `inf`, or `NaN` when `dy = 0`
too), hence the guard `dx ≠ 0 ∧ dy ≤ dx`. -/
def polygon_buffer_line (buff : List ℤ) (right : Bool) (x1 y1 x2 y2 : ℤ) :
    List ℤ :=
  let dx := |x2 - x1|
  let dy := |y2 - y1|
  if dx ≠ 0 ∧ dy ≤ dx then
    match (if x1 < x2 then (x1, y1, x2, y2) else (x2, y2, x1, y1)) with
    | (sx, sy, ex, ey) =>
      let step : ℤ := if sy < ey then 1 else -1
      let a := 2 * dy
      let b := a - 2 * dx
      let p := a - dx
      pblShallowAux right sx sy step a b (buff.set sy.toNat sx) p 0 false 1
        ((ex - sx).toNat)
  else
    match (if y1 < y2 then (x1, y1, x2, y2) else (x2, y2, x1, y1)) with
    | (sx, sy, ex, ey) =>
      let step : ℤ := if sx < ex then 1 else -1
      let a := 2 * dx
      let b := a - 2 * dy
      let p := a - dy
      pblSteepAux sx sy step a b (buff.set sy.toNat sx) p 0 1 ((ey - sy).toNat)

/-- One boundary-chain walk of `draw_polygon_solid` (a `loop` that breaks
once the incremented index reaches `target` mod `len`).  `fuel = len`
always suffices: the break condition is met after at most `len`
increments. -/
def chainAux (verts : List (ℤ × ℤ)) (right : Bool) (target : ℕ) :
    List ℤ → ℕ → ℕ → List ℤ
  | buff, idx, 0 => buff
  | buff, idx, fuel + 1 =>
    let len := verts.length
    let p1 := verts.getD (idx % len) (0, 0)
    let p2 := verts.getD ((idx + 1) % len) (0, 0)
    let buff := polygon_buffer_line buff right p1.1 p1.2 p2.1 p2.2
    let idx := idx + 1
    if idx % len = target then buff else chainAux verts right target buff idx fuel

/-- `Canvas::draw_polygon_solid`. -/
def Canvas.draw_polygon_solid (c : Canvas) (vertices : List (ℤ × ℤ))
    (clockwise : Bool) (color : RGBA) : Canvas :=
  if vertices = [] then c
  else
    let n := vertices.length
    let min_vert := (List.range n).foldl
      (fun mv i => if (vertices.getD i (0, 0)).2 < (vertices.getD mv (0, 0)).2 then i else mv) 0
    let max_vert := (List.range n).foldl
      (fun mv i => if (vertices.getD mv (0, 0)).2 < (vertices.getD i (0, 0)).2 then i else mv) 0
    let sv := vertices.getD min_vert (0, 0)
    let verts := vertices.map (fun p => (p.1 - sv.1, p.2 - sv.2))
    let dy := ((verts.getD max_vert (0, 0)).2 + 1).toNat
    let lbuf : List ℤ := List.replicate dy 0
    let rbuf : List ℤ := List.replicate dy 0
    let start_vert := if clockwise then min_vert else max_vert
    let end_vert := if clockwise then max_vert else min_vert
    let rbuf := chainAux verts true end_vert rbuf start_vert n
    let lbuf := chainAux verts false start_vert lbuf end_vert n
    fillRowsAux lbuf rbuf sv.1 sv.2 color c 0 dy

/-- Invariant of the solid-circle scanline buffers: each row is either
untouched (both entries `0`, their initial value) or holds a symmetric
pair `x - cc`, `x + cc` recorded by the midpoint walk, whose squared
distance to the center row is below `rI^2 + rI`. -/
def PairInv (x rI : ℤ) (lbuf rbuf : List ℤ) : Prop :=
  lbuf.length = rbuf.length ∧
  ∀ k : ℕ, k < lbuf.length →
    (lbuf.getD k 0 = 0 ∧ rbuf.getD k 0 = 0) ∨
    ∃ cc : ℤ, 0 ≤ cc ∧ lbuf.getD k 0 = x - cc ∧ rbuf.getD k 0 = x + cc ∧
      cc ^ 2 + ((k : ℤ) - rI) ^ 2 ≤ rI ^ 2 + rI - 1

/-! ### List and index helpers -/

theorem getD_set_self {α : Type} (l : List α) (i : ℕ) (a d : α)
    (h : i < l.length) : (l.set i a).getD i d = a := by
  simp [List.getD, List.getElem?_set_self', h]

theorem getD_set_ne {α : Type} (l : List α) {i j : ℕ} (a d : α)
    (h : i ≠ j) : (l.set i a).getD j d = l.getD j d := by
  simp [List.getD, List.getElem?_set_ne h]

theorem getD_replicate_of_lt {α : Type} {n i : ℕ} (x d : α) (h : i < n) :
    (List.replicate n x).getD i d = x := by
  simp [List.getD, List.getElem?_replicate, h]

theorem flat_lt {w px qx py qy : ℕ} (hp : px < w) (hlt : py < qy) :
    py * w + px < qy * w + qx :=
  calc py * w + px < py * w + w := Nat.add_lt_add_left hp _
    _ = (py + 1) * w := (Nat.succ_mul py w).symm
    _ ≤ qy * w := Nat.mul_le_mul_right w hlt
    _ ≤ qy * w + qx := Nat.le_add_right _ _

theorem flatIdx_lt {x y w h : ℕ} (hx : x < w) (hy : y < h) :
    y * w + x < w * h :=
  calc y * w + x < y * w + w := Nat.add_lt_add_left hx _
    _ = (y + 1) * w := (Nat.succ_mul y w).symm
    _ ≤ h * w := Nat.mul_le_mul_right w hy
    _ = w * h := Nat.mul_comm h w

theorem flatIdx_inj {w px qx py qy : ℕ} (hp : px < w) (hq : qx < w)
    (h : py * w + px = qy * w + qx) : px = qx ∧ py = qy := by
  rcases Nat.lt_trichotomy py qy with hlt | heq | hgt
  · exact absurd h (Nat.ne_of_lt (flat_lt hp hlt))
  · subst heq
    exact ⟨Nat.add_left_cancel h, rfl⟩
  · exact absurd h.symm (Nat.ne_of_lt (flat_lt hq hgt))

/-! ### Pixel-level lemmas -/

theorem pixel_inside_iff (c : Canvas) (x y : ℤ) :
    c.pixel_inside x y = true ↔
      0 ≤ x ∧ x < (c.width : ℤ) ∧ 0 ≤ y ∧ y < (c.height : ℤ) := by
  simp [Canvas.pixel_inside, Bool.and_eq_true, decide_eq_true_eq, and_assoc]

theorem draw_pixel_inside (c : Canvas) {x y : ℤ} (color : RGBA)
    (hlen : c.buffer.length = c.width * c.height)
    (h : c.pixel_inside x y = true) :
    c.draw_pixel x y color =
      some (c.writePixel (y.toNat * c.width + x.toNat)
        ((c.buffer.getD (y.toNat * c.width + x.toNat) black).add_rgba color)) := by
  obtain ⟨hx0, hxw, hy0, hyh⟩ := (pixel_inside_iff c x y).1 h
  have hx : x.toNat < c.width := by omega
  have hy : y.toNat < c.height := by omega
  have hidx : y.toNat * c.width + x.toNat < c.buffer.length := by
    rw [hlen]; exact flatIdx_lt hx hy
  unfold Canvas.draw_pixel Canvas.get Canvas.set
  simp [h, List.getElem?_eq_getElem hidx, hidx, List.getD]

theorem draw_pixel'_eq_of_inside (c : Canvas) {x y : ℤ} (color : RGBA)
    (hlen : c.buffer.length = c.width * c.height)
    (h : c.pixel_inside x y = true) :
    c.draw_pixel' x y color =
      c.writePixel (y.toNat * c.width + x.toNat)
        ((c.buffer.getD (y.toNat * c.width + x.toNat) black).add_rgba color) := by
  rw [Canvas.draw_pixel', draw_pixel_inside c color hlen h]
  rfl

theorem draw_pixel'_eq_of_not_inside (c : Canvas) {x y : ℤ} (color : RGBA)
    (h : c.pixel_inside x y = false) : c.draw_pixel' x y color = c := by
  simp [Canvas.draw_pixel', Canvas.draw_pixel, h]

theorem draw_pixel'_cases (c : Canvas) (x y : ℤ) (color : RGBA) :
    c.draw_pixel' x y color = c ∨
    ∃ idx v, c.draw_pixel' x y color = c.writePixel idx v := by
  unfold Canvas.draw_pixel' Canvas.draw_pixel
  by_cases hin : c.pixel_inside x y
  · cases hget : c.get x.toNat y.toNat with
    | none => simp [hin, hget]
    | some old =>
      unfold Canvas.set
      by_cases hidx : y.toNat * c.width + x.toNat < c.buffer.length
      · right
        exact ⟨y.toNat * c.width + x.toNat, old.add_rgba color,
          by simp [hin, hget, hidx]⟩
      · simp [hin, hget, hidx]
  · simp [hin]

theorem draw_pixel'_width (c : Canvas) (x y : ℤ) (color : RGBA) :
    (c.draw_pixel' x y color).width = c.width := by
  rcases draw_pixel'_cases c x y color with h | ⟨idx, v, h⟩ <;>
    simp [h, Canvas.writePixel]

theorem draw_pixel'_height (c : Canvas) (x y : ℤ) (color : RGBA) :
    (c.draw_pixel' x y color).height = c.height := by
  rcases draw_pixel'_cases c x y color with h | ⟨idx, v, h⟩ <;>
    simp [h, Canvas.writePixel]

theorem draw_pixel'_length (c : Canvas) (x y : ℤ) (color : RGBA) :
    (c.draw_pixel' x y color).buffer.length = c.buffer.length := by
  rcases draw_pixel'_cases c x y color with h | ⟨idx, v, h⟩ <;>
    simp [h, Canvas.writePixel, List.length_set]

theorem draw_pixel'_getD_ne (c : Canvas) (x y : ℤ) (color : RGBA) (j : ℕ)
    (h : c.pixel_inside x y = true → j ≠ y.toNat * c.width + x.toNat) :
    (c.draw_pixel' x y color).buffer.getD j black = c.buffer.getD j black := by
  unfold Canvas.draw_pixel' Canvas.draw_pixel
  by_cases hin : c.pixel_inside x y
  · cases hget : c.get x.toNat y.toNat with
    | none => simp [hin, hget]
    | some old =>
      unfold Canvas.set
      by_cases hidx : y.toNat * c.width + x.toNat < c.buffer.length
      · simp only [hin, Bool.not_true, Bool.false_eq_true, if_false, hget,
          hidx, if_true, Option.getD_some, Canvas.writePixel]
        exact getD_set_ne _ _ _ (fun he => (h hin) he.symm)
      · simp [hin, hget, hidx]
  · simp [hin]

theorem draw_pixel'_getD_self (c : Canvas) {x y : ℤ} (color : RGBA)
    (hlen : c.buffer.length = c.width * c.height)
    (hin : c.pixel_inside x y = true) :
    (c.draw_pixel' x y color).buffer.getD (y.toNat * c.width + x.toNat) black =
      (c.buffer.getD (y.toNat * c.width + x.toNat) black).add_rgba color := by
  rw [draw_pixel'_eq_of_inside c color hlen hin]
  obtain ⟨hx0, hxw, hy0, hyh⟩ := (pixel_inside_iff c x y).1 hin
  have hx : x.toNat < c.width := by omega
  have hy : y.toNat < c.height := by omega
  exact getD_set_self _ _ _ _ (by rw [hlen]; exact flatIdx_lt hx hy)

/-! ### Alpha blending at the extreme alphas -/

theorem ratToU8_natCast (v : Fin 256) : ratToU8 ((v.val : ℕ) : ℚ) = v := by
  unfold ratToU8
  have h0 : ¬(((v.val : ℕ) : ℚ) < 0) := not_lt.2 (Nat.cast_nonneg _)
  have hf : ⌊((v.val : ℕ) : ℚ)⌋ = (v.val : ℤ) := Int.floor_natCast v.val
  have hv := v.isLt
  rw [if_neg h0]
  rw [dif_pos (by rw [hf]; omega)]
  apply Fin.ext
  simp [hf]

theorem lerp_one (p q : RGB) : p.lerp q 1 = q := by
  unfold RGB.lerp
  norm_num [ratToU8_natCast]

theorem lerp_zero (p q : RGB) : p.lerp q 0 = p := by
  unfold RGB.lerp
  norm_num [ratToU8_natCast]

theorem add_rgba_opaque (p : RGB) (color : RGBA) (h : color.a = 255) :
    p.add_rgba color = ⟨color.r, color.g, color.b⟩ := by
  unfold RGB.add_rgba RGBA.to_rgb
  have hval : (255 : Fin 256).val = 255 := rfl
  rw [h, hval]
  norm_num [lerp_one]

theorem add_rgba_transparent (p : RGB) (color : RGBA) (h : color.a = 0) :
    p.add_rgba color = p := by
  unfold RGB.add_rgba RGBA.to_rgb
  have hval : (0 : Fin 256).val = 0 := rfl
  rw [h, hval]
  norm_num [lerp_zero]

/-! ### Claim C9: in-bounds draw_pixel never fails -/

/-- Claim C9: once `pixel_inside` has passed (and the canvas satisfies its
`length = width * height` invariant), the internal `get`/`set` calls of
`draw_pixel` cannot fail: `draw_pixel` returns a value. -/
theorem claim_C9_draw_pixel_total (c : Canvas) (x y : ℤ) (color : RGBA)
    (hlen : c.buffer.length = c.width * c.height)
    (hin : c.pixel_inside x y = true) :
    (c.draw_pixel x y color).isSome = true := by
  rw [draw_pixel_inside c color hlen hin]
  rfl

theorem claim_C9_witness :
    ((Canvas.new 4 3).draw_pixel 2 1 ⟨10, 20, 30, 40⟩).isSome = true :=
  claim_C9_draw_pixel_total (Canvas.new 4 3) 2 1 ⟨10, 20, 30, 40⟩
    (by decide) (by decide)

/-! ### Claim C10: draw_pixel touches at most one buffer entry -/

/-- Claim C10: `draw_pixel` changes at most the buffer entry at flat index
`y * width + x`; every other entry, the width, the height and the buffer
length are unchanged (for arbitrary, also out-of-bounds, coordinates). -/
theorem claim_C10_draw_pixel_frame (c : Canvas) (x y : ℤ) (color : RGBA)
    (j : ℕ) (h : (j : ℤ) ≠ y * (c.width : ℤ) + x) :
    (c.draw_pixel' x y color).width = c.width ∧
    (c.draw_pixel' x y color).height = c.height ∧
    (c.draw_pixel' x y color).buffer.length = c.buffer.length ∧
    (c.draw_pixel' x y color).buffer.getD j black = c.buffer.getD j black := by
  refine ⟨draw_pixel'_width c x y color, draw_pixel'_height c x y color,
    draw_pixel'_length c x y color, ?_⟩
  apply draw_pixel'_getD_ne
  intro hin heq
  obtain ⟨hx0, hxw, hy0, hyh⟩ := (pixel_inside_iff c x y).1 hin
  apply h
  have hyy : (y.toNat : ℤ) = y := Int.toNat_of_nonneg hy0
  have hxx : (x.toNat : ℤ) = x := Int.toNat_of_nonneg hx0
  rw [heq]
  push_cast
  rw [hyy, hxx]

theorem claim_C10_witness :
    ((Canvas.new 4 3).draw_pixel' 2 1 ⟨10, 20, 30, 40⟩).width = (Canvas.new 4 3).width ∧
    ((Canvas.new 4 3).draw_pixel' 2 1 ⟨10, 20, 30, 40⟩).height = (Canvas.new 4 3).height ∧
    ((Canvas.new 4 3).draw_pixel' 2 1 ⟨10, 20, 30, 40⟩).buffer.length
      = (Canvas.new 4 3).buffer.length ∧
    ((Canvas.new 4 3).draw_pixel' 2 1 ⟨10, 20, 30, 40⟩).buffer.getD 0 black
      = (Canvas.new 4 3).buffer.getD 0 black :=
  claim_C10_draw_pixel_frame (Canvas.new 4 3) 2 1 ⟨10, 20, 30, 40⟩ 0 (by decide)

/-! ### Claim C6: draw_pixel at alpha 255 and alpha 0 -/

/-- Claim C6: for an in-bounds pixel, `draw_pixel` with alpha `255` stores
exactly the RGB part of the color, and with alpha `0` leaves the stored
pixel unchanged. -/
theorem claim_C6_draw_pixel_alpha (c : Canvas) (x y : ℤ) (color : RGBA)
    (hlen : c.buffer.length = c.width * c.height)
    (hin : c.pixel_inside x y = true) :
    (color.a = 255 →
      (c.draw_pixel' x y color).buffer.getD (y.toNat * c.width + x.toNat) black
        = ⟨color.r, color.g, color.b⟩) ∧
    (color.a = 0 →
      (c.draw_pixel' x y color).buffer.getD (y.toNat * c.width + x.toNat) black
        = c.buffer.getD (y.toNat * c.width + x.toNat) black) := by
  constructor <;> intro ha <;> rw [draw_pixel'_getD_self c color hlen hin]
  · exact add_rgba_opaque _ _ ha
  · exact add_rgba_transparent _ _ ha

theorem claim_C6_witness :
    (((Canvas.new 3 3).draw_pixel' 1 1 ⟨255, 255, 255, 255⟩).buffer.getD (1 * 3 + 1) black
      = ⟨255, 255, 255⟩) ∧
    (((Canvas.new 3 3).draw_pixel' 1 1 ⟨7, 8, 9, 0⟩).buffer.getD (1 * 3 + 1) black
      = (Canvas.new 3 3).buffer.getD (1 * 3 + 1) black) :=
  ⟨(claim_C6_draw_pixel_alpha (Canvas.new 3 3) 1 1 ⟨255, 255, 255, 255⟩
      (by decide) (by decide)).1 rfl,
   (claim_C6_draw_pixel_alpha (Canvas.new 3 3) 1 1 ⟨7, 8, 9, 0⟩
      (by decide) (by decide)).2 rfl⟩

/-! ### Claim C1: out-of-bounds get/set -/

/-- Claim C1 fails on the code: on a `10 × 10` canvas the out-of-bounds
coordinates `(15, 0)` flatten to index `15 < 100`, so `get` returns a
value (the pixel at `(5, 1)`) and `set` mutates the buffer, where the
claim (and the methods' own documentation) promise `None` and no
mutation.  `draw_pixel`, which checks `pixel_inside` first, is not
affected. -/
theorem claim_C1_failing_eval :
    ((Canvas.new 10 10).get 15 0).isSome = true ∧
    ((Canvas.new 10 10).set 15 0 ⟨255, 255, 255⟩).map
      (fun c => c.buffer.getD 15 black) = some ⟨255, 255, 255⟩ ∧
    (Canvas.new 10 10).buffer.getD 15 black = black := by
  decide

/-! ### Claim C5: vertical clamping uses width as the low bound -/

/-- Claim C5 fails on the code: clamping the vertical segment
`(5, 5)-(5, 25)` on a `10 × 20` canvas sends the out-of-range endpoint to
`y = 10`, which is the canvas *width*, not the height `20` stated by the
claim (the source's `s_yh` reads `self.width`). -/
theorem claim_C5_failing_eval :
    (Canvas.new 10 20).clamp_line_coords 5 5 5 25 = some (5, 5, 5, 10) ∧
    (Canvas.new 10 20).height = 20 ∧ (10 : ℤ) ≠ 20 := by
  decide

/-! ### Claim C2: fully-off-canvas drawing -/

theorem clamp_offcanvas_eval :
    (Canvas.new 20 20).clamp_line_coords (-10) (-1) (-1) (-10) = none := by
  unfold Canvas.clamp_line_coords
  norm_num [Canvas.new]

/-- Claim C2 fails on the code: drawing the fully-off-canvas segment
`(-10, -1)-(-1, -10)` on a `20 × 20` canvas panics — the line misses the
canvas rectangle, no boundary intersection passes the validity filter,
and `clamp_line_coords` calls `unwrap()` on `None` (modelled by `none`). -/
theorem claim_C2_failing_eval :
    (Canvas.new 20 20).draw_line (-10) (-1) (-1) (-10) ⟨255, 255, 255, 255⟩
      = none := by
  unfold Canvas.draw_line
  rw [clamp_offcanvas_eval]

/-! ### Characterization of the vertical fill loop -/

theorem vertFillAux_getD (color : RGBA) (ha : color.a = 255) :
    ∀ (n : ℕ) (c : Canvas) (x ys : ℤ) (px py : ℕ),
      c.buffer.length = c.width * c.height →
      px < c.width → py < c.height →
      (vertFillAux c x ys color n).buffer.getD (py * c.width + px) black =
        if (px : ℤ) = x ∧ ys ≤ (py : ℤ) ∧ (py : ℤ) < ys + (n : ℤ)
        then (⟨color.r, color.g, color.b⟩ : RGB)
        else c.buffer.getD (py * c.width + px) black := by
  intro n
  induction n with
  | zero =>
    intro c x ys px py hlen hpx hpy
    simp only [vertFillAux]
    rw [if_neg (by omega)]
  | succ k ih =>
    intro c x ys px py hlen hpx hpy
    simp only [vertFillAux]
    have hw := draw_pixel'_width c x ys color
    have hh := draw_pixel'_height c x ys color
    have hl := draw_pixel'_length c x ys color
    have hstep := ih (c.draw_pixel' x ys color) x (ys + 1) px py
      (by rw [hl, hw, hh]; exact hlen) (by rw [hw]; exact hpx)
      (by rw [hh]; exact hpy)
    rw [hw] at hstep
    rw [hstep]
    by_cases hcond : (px : ℤ) = x ∧ ys ≤ (py : ℤ) ∧ (py : ℤ) < ys + ((k + 1 : ℕ) : ℤ)
    · rw [if_pos hcond]
      by_cases hfirst : (py : ℤ) = ys
      · rw [if_neg (by omega)]
        have hpin : c.pixel_inside x ys = true := by
          rw [pixel_inside_iff]
          refine ⟨by omega, by omega, by omega, by omega⟩
        have hidx : ys.toNat * c.width + x.toNat = py * c.width + px := by
          have h1 : ys.toNat = py := by omega
          have h2 : x.toNat = px := by omega
          rw [h1, h2]
        rw [← hidx, draw_pixel'_getD_self c color hlen hpin,
          add_rgba_opaque _ _ ha]
      · rw [if_pos (by omega)]
    · rw [if_neg hcond, if_neg (by omega)]
      apply draw_pixel'_getD_ne
      intro hin heq
      obtain ⟨hx0, hxw, hy0, hyh⟩ := (pixel_inside_iff c x ys).1 hin
      have hxlt : x.toNat < c.width := by omega
      obtain ⟨hpx_eq, hpy_eq⟩ := flatIdx_inj hpx hxlt heq
      exact hcond ⟨by omega, by omega, by omega⟩

/-! ### Claim C7: the degenerate vertical case of draw_line -/

/-- Claim C7: when the clamped coordinates satisfy `x1 = x2`, `draw_line`
draws exactly the pixels `(x1, y)` for `min y1 y2 ≤ y < max y1 y2` — the
top endpoint included, the bottom endpoint excluded; with `y1 = y2` no
pixel is drawn. -/
theorem claim_C7_vertical_line (c : Canvas) (x1 y1 x2 y2 a b d : ℤ)
    (color : RGBA) (hlen : c.buffer.length = c.width * c.height)
    (ha : color.a = 255)
    (hclamp : c.clamp_line_coords x1 y1 x2 y2 = some (a, b, a, d)) :
    ∃ c', c.draw_line x1 y1 x2 y2 color = some c' ∧
      ∀ px py : ℕ, px < c.width → py < c.height →
        c'.buffer.getD (py * c.width + px) black =
          if (px : ℤ) = a ∧ min b d ≤ (py : ℤ) ∧ (py : ℤ) < max b d
          then (⟨color.r, color.g, color.b⟩ : RGB)
          else c.buffer.getD (py * c.width + px) black := by
  refine ⟨vertFillAux c a (min b d) color ((max b d - min b d).toNat), ?_, ?_⟩
  · unfold Canvas.draw_line
    rw [hclamp]
    simp only [if_pos rfl]
    by_cases hbd : b < d
    · simp [hbd, min_eq_left (le_of_lt hbd), max_eq_right (le_of_lt hbd)]
    · simp [hbd, min_eq_right (not_lt.1 hbd), max_eq_left (not_lt.1 hbd)]
  · intro px py hpx hpy
    rw [vertFillAux_getD color ha _ c a (min b d) px py hlen hpx hpy]
    exact if_congr (by omega) rfl rfl

theorem claim_C7_witness :
    ∃ c', (Canvas.new 10 10).draw_line 3 2 3 6 ⟨255, 255, 255, 255⟩ = some c' ∧
      ∀ px py : ℕ, px < (Canvas.new 10 10).width → py < (Canvas.new 10 10).height →
        c'.buffer.getD (py * (Canvas.new 10 10).width + px) black =
          if (px : ℤ) = 3 ∧ min 2 6 ≤ (py : ℤ) ∧ (py : ℤ) < max 2 6
          then (⟨255, 255, 255⟩ : RGB)
          else (Canvas.new 10 10).buffer.getD (py * (Canvas.new 10 10).width + px) black :=
  claim_C7_vertical_line (Canvas.new 10 10) 3 2 3 6 3 2 6 ⟨255, 255, 255, 255⟩
    (by decide) rfl (by decide)

/-! ### Characterization of the scanline fill loops -/

theorem fillRowAux_width (yrow : ℤ) (color : RGBA) :
    ∀ (n : ℕ) (c : Canvas) (xs : ℤ),
      (fillRowAux yrow color c xs n).width = c.width := by
  intro n
  induction n with
  | zero => intro c xs; rfl
  | succ k ih =>
    intro c xs
    simp only [fillRowAux]
    rw [ih, draw_pixel'_width]

theorem fillRowAux_height (yrow : ℤ) (color : RGBA) :
    ∀ (n : ℕ) (c : Canvas) (xs : ℤ),
      (fillRowAux yrow color c xs n).height = c.height := by
  intro n
  induction n with
  | zero => intro c xs; rfl
  | succ k ih =>
    intro c xs
    simp only [fillRowAux]
    rw [ih, draw_pixel'_height]

theorem fillRowAux_length (yrow : ℤ) (color : RGBA) :
    ∀ (n : ℕ) (c : Canvas) (xs : ℤ),
      (fillRowAux yrow color c xs n).buffer.length = c.buffer.length := by
  intro n
  induction n with
  | zero => intro c xs; rfl
  | succ k ih =>
    intro c xs
    simp only [fillRowAux]
    rw [ih, draw_pixel'_length]

theorem fillRowAux_frame (yrow : ℤ) (color : RGBA) :
    ∀ (n : ℕ) (c : Canvas) (xs : ℤ) (px py : ℕ),
      px < c.width → py < c.height →
      ¬((py : ℤ) = yrow ∧ xs ≤ (px : ℤ) ∧ (px : ℤ) < xs + (n : ℤ)) →
      (fillRowAux yrow color c xs n).buffer.getD (py * c.width + px) black =
        c.buffer.getD (py * c.width + px) black := by
  intro n
  induction n with
  | zero => intro c xs px py hpx hpy hcond; rfl
  | succ k ih =>
    intro c xs px py hpx hpy hcond
    simp only [fillRowAux]
    have hw := draw_pixel'_width c xs yrow color
    have hh := draw_pixel'_height c xs yrow color
    have hstep := ih (c.draw_pixel' xs yrow color) (xs + 1) px py
      (by rw [hw]; exact hpx) (by rw [hh]; exact hpy) (by omega)
    rw [hw] at hstep
    rw [hstep]
    apply draw_pixel'_getD_ne
    intro hin heq
    obtain ⟨hx0, hxw, hy0, hyh⟩ := (pixel_inside_iff c xs yrow).1 hin
    have hxlt : xs.toNat < c.width := by omega
    obtain ⟨hpx_eq, hpy_eq⟩ := flatIdx_inj hpx hxlt heq
    exact hcond ⟨by omega, by omega, by omega⟩

theorem fillRowAux_getD (color : RGBA) (ha : color.a = 255) :
    ∀ (n : ℕ) (c : Canvas) (yrow xs : ℤ) (px py : ℕ),
      c.buffer.length = c.width * c.height →
      px < c.width → py < c.height →
      (fillRowAux yrow color c xs n).buffer.getD (py * c.width + px) black =
        if (py : ℤ) = yrow ∧ xs ≤ (px : ℤ) ∧ (px : ℤ) < xs + (n : ℤ)
        then (⟨color.r, color.g, color.b⟩ : RGB)
        else c.buffer.getD (py * c.width + px) black := by
  intro n
  induction n with
  | zero =>
    intro c yrow xs px py hlen hpx hpy
    simp only [fillRowAux]
    rw [if_neg (by omega)]
  | succ k ih =>
    intro c yrow xs px py hlen hpx hpy
    simp only [fillRowAux]
    have hw := draw_pixel'_width c xs yrow color
    have hh := draw_pixel'_height c xs yrow color
    have hl := draw_pixel'_length c xs yrow color
    have hstep := ih (c.draw_pixel' xs yrow color) yrow (xs + 1) px py
      (by rw [hl, hw, hh]; exact hlen) (by rw [hw]; exact hpx)
      (by rw [hh]; exact hpy)
    rw [hw] at hstep
    rw [hstep]
    by_cases hcond : (py : ℤ) = yrow ∧ xs ≤ (px : ℤ) ∧ (px : ℤ) < xs + ((k + 1 : ℕ) : ℤ)
    · rw [if_pos hcond]
      by_cases hfirst : (px : ℤ) = xs
      · rw [if_neg (by omega)]
        have hpin : c.pixel_inside xs yrow = true := by
          rw [pixel_inside_iff]
          refine ⟨by omega, by omega, by omega, by omega⟩
        have hidx : yrow.toNat * c.width + xs.toNat = py * c.width + px := by
          have h1 : yrow.toNat = py := by omega
          have h2 : xs.toNat = px := by omega
          rw [h1, h2]
        rw [← hidx, draw_pixel'_getD_self c color hlen hpin,
          add_rgba_opaque _ _ ha]
      · rw [if_pos (by omega)]
    · rw [if_neg hcond, if_neg (by omega)]
      apply draw_pixel'_getD_ne
      intro hin heq
      obtain ⟨hx0, hxw, hy0, hyh⟩ := (pixel_inside_iff c xs yrow).1 hin
      have hxlt : xs.toNat < c.width := by omega
      obtain ⟨hpx_eq, hpy_eq⟩ := flatIdx_inj hpx hxlt heq
      exact hcond ⟨by omega, by omega, by omega⟩

theorem fillRow_width (c : Canvas) (yrow x1 x2 : ℤ) (color : RGBA) :
    (fillRow c yrow x1 x2 color).width = c.width :=
  fillRowAux_width yrow color _ c x1

theorem fillRow_height (c : Canvas) (yrow x1 x2 : ℤ) (color : RGBA) :
    (fillRow c yrow x1 x2 color).height = c.height :=
  fillRowAux_height yrow color _ c x1

theorem fillRow_length (c : Canvas) (yrow x1 x2 : ℤ) (color : RGBA) :
    (fillRow c yrow x1 x2 color).buffer.length = c.buffer.length :=
  fillRowAux_length yrow color _ c x1

theorem fillRow_frame (c : Canvas) (yrow x1 x2 : ℤ) (color : RGBA)
    (px py : ℕ) (hpx : px < c.width) (hpy : py < c.height)
    (hcond : ¬((py : ℤ) = yrow ∧ x1 ≤ (px : ℤ) ∧ (px : ℤ) < x2)) :
    (fillRow c yrow x1 x2 color).buffer.getD (py * c.width + px) black =
      c.buffer.getD (py * c.width + px) black :=
  fillRowAux_frame yrow color _ c x1 px py hpx hpy (by omega)

theorem fillRow_getD (c : Canvas) (yrow x1 x2 : ℤ) (color : RGBA)
    (ha : color.a = 255) (px py : ℕ)
    (hlen : c.buffer.length = c.width * c.height)
    (hpx : px < c.width) (hpy : py < c.height) :
    (fillRow c yrow x1 x2 color).buffer.getD (py * c.width + px) black =
      if (py : ℤ) = yrow ∧ x1 ≤ (px : ℤ) ∧ (px : ℤ) < x2
      then (⟨color.r, color.g, color.b⟩ : RGB)
      else c.buffer.getD (py * c.width + px) black := by
  unfold fillRow
  rw [fillRowAux_getD color ha _ c yrow x1 px py hlen hpx hpy]
  exact if_congr (by omega) rfl rfl

theorem fillRowsAux_width (lbuf rbuf : List ℤ) (xoff yBase : ℤ) (color : RGBA) :
    ∀ (n i : ℕ) (c : Canvas),
      (fillRowsAux lbuf rbuf xoff yBase color c i n).width = c.width := by
  intro n
  induction n with
  | zero => intro i c; rfl
  | succ k ih =>
    intro i c
    simp only [fillRowsAux]
    rw [ih, fillRow_width]

theorem fillRowsAux_height (lbuf rbuf : List ℤ) (xoff yBase : ℤ) (color : RGBA) :
    ∀ (n i : ℕ) (c : Canvas),
      (fillRowsAux lbuf rbuf xoff yBase color c i n).height = c.height := by
  intro n
  induction n with
  | zero => intro i c; rfl
  | succ k ih =>
    intro i c
    simp only [fillRowsAux]
    rw [ih, fillRow_height]

theorem fillRowsAux_length (lbuf rbuf : List ℤ) (xoff yBase : ℤ) (color : RGBA) :
    ∀ (n i : ℕ) (c : Canvas),
      (fillRowsAux lbuf rbuf xoff yBase color c i n).buffer.length = c.buffer.length := by
  intro n
  induction n with
  | zero => intro i c; rfl
  | succ k ih =>
    intro i c
    simp only [fillRowsAux]
    rw [ih, fillRow_length]

theorem fillRowsAux_frame (lbuf rbuf : List ℤ) (xoff yBase : ℤ) (color : RGBA) :
    ∀ (n i : ℕ) (c : Canvas) (px py : ℕ),
      px < c.width → py < c.height →
      (∀ k : ℕ, i ≤ k → k < i + n →
        ¬((py : ℤ) = (k : ℤ) + yBase ∧ lbuf.getD k 0 + xoff ≤ (px : ℤ) ∧
          (px : ℤ) < rbuf.getD k 0 + xoff)) →
      (fillRowsAux lbuf rbuf xoff yBase color c i n).buffer.getD
        (py * c.width + px) black = c.buffer.getD (py * c.width + px) black := by
  intro n
  induction n with
  | zero => intro i c px py hpx hpy hcond; rfl
  | succ m ih =>
    intro i c px py hpx hpy hcond
    simp only [fillRowsAux]
    have hw := fillRow_width c ((i : ℤ) + yBase) (lbuf.getD i 0 + xoff)
      (rbuf.getD i 0 + xoff) color
    have hh := fillRow_height c ((i : ℤ) + yBase) (lbuf.getD i 0 + xoff)
      (rbuf.getD i 0 + xoff) color
    have hstep := ih (i + 1)
      (fillRow c ((i : ℤ) + yBase) (lbuf.getD i 0 + xoff) (rbuf.getD i 0 + xoff) color)
      px py (by rw [hw]; exact hpx) (by rw [hh]; exact hpy)
      (fun k hk1 hk2 => hcond k (by omega) (by omega))
    rw [hw] at hstep
    rw [hstep]
    exact fillRow_frame c _ _ _ color px py hpx hpy (hcond i (by omega) (by omega))

theorem fillRowsAux_write (lbuf rbuf : List ℤ) (xoff yBase : ℤ) (color : RGBA)
    (ha : color.a = 255) :
    ∀ (n i : ℕ) (c : Canvas) (px py : ℕ) (k0 : ℕ),
      c.buffer.length = c.width * c.height →
      px < c.width → py < c.height →
      i ≤ k0 → k0 < i + n →
      (py : ℤ) = (k0 : ℤ) + yBase →
      lbuf.getD k0 0 + xoff ≤ (px : ℤ) →
      (px : ℤ) < rbuf.getD k0 0 + xoff →
      (fillRowsAux lbuf rbuf xoff yBase color c i n).buffer.getD
        (py * c.width + px) black = (⟨color.r, color.g, color.b⟩ : RGB) := by
  intro n
  induction n with
  | zero => intro i c px py k0 hlen hpx hpy hk1 hk2; omega
  | succ m ih =>
    intro i c px py k0 hlen hpx hpy hk1 hk2 hrow hlo hhi
    simp only [fillRowsAux]
    have hw := fillRow_width c ((i : ℤ) + yBase) (lbuf.getD i 0 + xoff)
      (rbuf.getD i 0 + xoff) color
    have hh := fillRow_height c ((i : ℤ) + yBase) (lbuf.getD i 0 + xoff)
      (rbuf.getD i 0 + xoff) color
    have hl := fillRow_length c ((i : ℤ) + yBase) (lbuf.getD i 0 + xoff)
      (rbuf.getD i 0 + xoff) color
    by_cases hk0 : k0 = i
    · -- this row writes the pixel; the remaining rows have different y
      have hframe := fillRowsAux_frame lbuf rbuf xoff yBase color m (i + 1)
        (fillRow c ((i : ℤ) + yBase) (lbuf.getD i 0 + xoff) (rbuf.getD i 0 + xoff) color)
        px py (by rw [hw]; exact hpx) (by rw [hh]; exact hpy)
        (fun k hka hkb hc => by
          subst hk0
          exact absurd hc.1 (by omega))
      rw [hw] at hframe
      rw [hframe]
      rw [fillRow_getD c _ _ _ color ha px py hlen hpx hpy]
      subst hk0
      rw [if_pos ⟨hrow, hlo, hhi⟩]
    · -- this row is not the target row; recurse
      have hstep := ih (i + 1)
        (fillRow c ((i : ℤ) + yBase) (lbuf.getD i 0 + xoff) (rbuf.getD i 0 + xoff) color)
        px py k0 (by rw [hl, hw, hh]; exact hlen) (by rw [hw]; exact hpx)
        (by rw [hh]; exact hpy) (by omega) (by omega) hrow hlo hhi
      rw [hw] at hstep
      rw [hstep]

/-! ### Claim C3: solid rectangle fill -/

theorem polygon_rect_eval :
    (Canvas.new 20 20).draw_polygon_solid [(0, 0), (10, 0), (10, 10), (0, 10)]
      true ⟨255, 0, 0, 255⟩ =
    fillRowsAux (List.replicate 11 0) (List.replicate 11 10) 0 0
      ⟨255, 0, 0, 255⟩ (Canvas.new 20 20) 0 11 := rfl

/-- Claim C3 as stated is false: the fill loop runs over rows
`0..(maxY + 1)`, so row `y = 10` is filled as well — pixel `(0, 10)`
changes although the claim says only `[0,10) × [0,10)` changes. -/
theorem claim_C3_counterexample :
    ((Canvas.new 20 20).draw_polygon_solid [(0, 0), (10, 0), (10, 10), (0, 10)]
        true ⟨255, 0, 0, 255⟩).buffer.getD (10 * 20 + 0) black ≠
      (Canvas.new 20 20).buffer.getD (10 * 20 + 0) black := by
  rw [polygon_rect_eval]
  have hw := fillRowsAux_write (List.replicate 11 0) (List.replicate 11 10) 0 0
    ⟨255, 0, 0, 255⟩ rfl 11 0 (Canvas.new 20 20) 0 10 10
    (by simp [Canvas.new]) (by decide) (by decide) (by omega) (by omega)
    (by norm_num) (by rw [getD_replicate_of_lt _ _ (by omega)]; norm_num)
    (by rw [getD_replicate_of_lt _ _ (by omega)]; norm_num)
  rw [show (10 : ℕ) * (Canvas.new 20 20).width + 0 = 10 * 20 + 0 from rfl] at hw
  rw [hw]
  decide

/-- Claim C3 amended: `drawPolygonSolid` on the rectangle
`(0,0),(10,0),(10,10),(0,10)`, clockwise, on a `20 × 20` canvas with
fully opaque red sets exactly the pixels with `0 ≤ x < 10` and
`0 ≤ y ≤ 10` (right column excluded, bottom row *included*) and changes
no other pixel. -/
theorem claim_C3_amended :
    ∀ px py : ℕ, px < 20 → py < 20 →
      ((Canvas.new 20 20).draw_polygon_solid [(0, 0), (10, 0), (10, 10), (0, 10)]
          true ⟨255, 0, 0, 255⟩).buffer.getD (py * 20 + px) black =
        if px < 10 ∧ py ≤ 10 then (⟨255, 0, 0⟩ : RGB) else black := by
  intro px py hpx hpy
  rw [polygon_rect_eval]
  have hc : (Canvas.new 20 20).width = 20 := rfl
  by_cases hreg : px < 10 ∧ py ≤ 10
  · rw [if_pos hreg]
    have hw := fillRowsAux_write (List.replicate 11 0) (List.replicate 11 10) 0 0
      ⟨255, 0, 0, 255⟩ rfl 11 0 (Canvas.new 20 20) px py py
      (by simp [Canvas.new]) (by exact hpx) (by exact hpy) (by omega) (by omega)
      (by norm_num)
      (by rw [getD_replicate_of_lt _ _ (by omega)]; push_cast; omega)
      (by rw [getD_replicate_of_lt _ _ (by omega)]; push_cast; omega)
    rw [hc] at hw
    exact hw
  · rw [if_neg hreg]
    have hf := fillRowsAux_frame (List.replicate 11 0) (List.replicate 11 10) 0 0
      ⟨255, 0, 0, 255⟩ 11 0 (Canvas.new 20 20) px py
      (by exact hpx) (by exact hpy)
      (fun k hk1 hk2 hcon => by
        rw [getD_replicate_of_lt _ _ (by omega : k < 11)] at hcon
        rw [getD_replicate_of_lt _ _ (by omega : k < 11)] at hcon
        exact hreg ⟨by omega, by omega⟩)
    rw [hc] at hf
    rw [hf]
    exact getD_replicate_of_lt _ _ (flatIdx_lt hpx hpy)

theorem claim_C3_witness :
    ((Canvas.new 20 20).draw_polygon_solid [(0, 0), (10, 0), (10, 10), (0, 10)]
        true ⟨255, 0, 0, 255⟩).buffer.getD (10 * 20 + 3) black =
      if 3 < 10 ∧ 10 ≤ 10 then (⟨255, 0, 0⟩ : RGB) else black :=
  claim_C3_amended 3 10 (by omega) (by omega)

/-! ### The midpoint walk invariant -/

theorem circLoop_length (x y rI : ℤ) :
    ∀ (fuel : ℕ) (e xo yo : ℤ) (lbuf rbuf : List ℤ),
      (circLoop x y rI e xo yo lbuf rbuf fuel).1.length = lbuf.length ∧
      (circLoop x y rI e xo yo lbuf rbuf fuel).2.length = rbuf.length := by
  intro fuel
  induction fuel with
  | zero => intro e xo yo lbuf rbuf; exact ⟨rfl, rfl⟩
  | succ f ih =>
    intro e xo yo lbuf rbuf
    simp only [circLoop]
    by_cases hyx : yo ≤ xo
    · rw [if_pos hyx]
      by_cases he' : 0 ≤ e + 2 * yo + 1
      · rw [if_pos he']
        obtain ⟨h1, h2⟩ := ih (e + 2 * yo + 1 - (2 * xo - 1)) (xo - 1) (yo + 1)
          ((((lbuf.set (y + yo - (y - rI)).toNat (x - xo)).set
              (y - yo - (y - rI)).toNat (x - xo)).set
              (y + xo - (y - rI)).toNat (x - yo)).set
              (y - xo - (y - rI)).toNat (x - yo))
          ((((rbuf.set (y + yo - (y - rI)).toNat (x + xo)).set
              (y - yo - (y - rI)).toNat (x + xo)).set
              (y + xo - (y - rI)).toNat (x + yo)).set
              (y - xo - (y - rI)).toNat (x + yo))
        constructor
        · rw [h1]; simp [List.length_set]
        · rw [h2]; simp [List.length_set]
      · rw [if_neg he']
        obtain ⟨h1, h2⟩ := ih (e + 2 * yo + 1) xo (yo + 1)
          ((((lbuf.set (y + yo - (y - rI)).toNat (x - xo)).set
              (y - yo - (y - rI)).toNat (x - xo)).set
              (y + xo - (y - rI)).toNat (x - yo)).set
              (y - xo - (y - rI)).toNat (x - yo))
          ((((rbuf.set (y + yo - (y - rI)).toNat (x + xo)).set
              (y - yo - (y - rI)).toNat (x + xo)).set
              (y + xo - (y - rI)).toNat (x + yo)).set
              (y - xo - (y - rI)).toNat (x + yo))
        constructor
        · rw [h1]; simp [List.length_set]
        · rw [h2]; simp [List.length_set]
    · rw [if_neg hyx]
      exact ⟨rfl, rfl⟩

theorem PairInv_set {x rI : ℤ} {lbuf rbuf : List ℤ} (h : PairInv x rI lbuf rbuf)
    (k : ℕ) (cc : ℤ) (hcc : 0 ≤ cc)
    (hb : cc ^ 2 + ((k : ℤ) - rI) ^ 2 ≤ rI ^ 2 + rI - 1) :
    PairInv x rI (lbuf.set k (x - cc)) (rbuf.set k (x + cc)) := by
  obtain ⟨hlen, hinv⟩ := h
  refine ⟨by simp [List.length_set, hlen], ?_⟩
  intro j hj
  rw [List.length_set] at hj
  by_cases hjk : j = k
  · subst hjk
    right
    exact ⟨cc, hcc, getD_set_self _ _ _ _ hj,
      getD_set_self _ _ _ _ (by rw [← hlen]; exact hj), hb⟩
  · rw [getD_set_ne _ _ _ (fun he => hjk he.symm),
      getD_set_ne _ _ _ (fun he => hjk he.symm)]
    exact hinv j hj

theorem circLoop_inv (x y rI : ℤ) :
    ∀ (fuel : ℕ) (e xo yo : ℤ) (lbuf rbuf : List ℤ),
      0 ≤ yo → xo ≤ rI → (yo ≤ xo → e < 0) →
      xo ^ 2 + yo ^ 2 = rI ^ 2 + rI + e →
      PairInv x rI lbuf rbuf →
      PairInv x rI (circLoop x y rI e xo yo lbuf rbuf fuel).1
        (circLoop x y rI e xo yo lbuf rbuf fuel).2 := by
  intro fuel
  induction fuel with
  | zero => intro e xo yo lbuf rbuf h0 hxr hcond heq hinv; exact hinv
  | succ f ih =>
    intro e xo yo lbuf rbuf h0 hxr hcond heq hinv
    simp only [circLoop]
    by_cases hyx : yo ≤ xo
    · rw [if_pos hyx]
      have he : e < 0 := hcond hyx
      have hb0 : xo ^ 2 + yo ^ 2 ≤ rI ^ 2 + rI - 1 := by rw [heq]; linarith
      have hA : (((y + yo - (y - rI)).toNat : ℤ)) = rI + yo := by omega
      have hB : (((y - yo - (y - rI)).toNat : ℤ)) = rI - yo := by omega
      have hC : (((y + xo - (y - rI)).toNat : ℤ)) = rI + xo := by omega
      have hD : (((y - xo - (y - rI)).toNat : ℤ)) = rI - xo := by omega
      have hinv4 := PairInv_set (PairInv_set (PairInv_set (PairInv_set hinv
        (y + yo - (y - rI)).toNat xo (by omega)
          (by rw [hA, show rI + yo - rI = yo from by ring]; exact hb0))
        (y - yo - (y - rI)).toNat xo (by omega)
          (by rw [hB, show (rI - yo - rI) ^ 2 = yo ^ 2 from by ring]; exact hb0))
        (y + xo - (y - rI)).toNat yo (by omega)
          (by rw [hC, show rI + xo - rI = xo from by ring]; linarith))
        (y - xo - (y - rI)).toNat yo (by omega)
          (by rw [hD, show (rI - xo - rI) ^ 2 = xo ^ 2 from by ring]; linarith)
      by_cases he' : 0 ≤ e + 2 * yo + 1
      · rw [if_pos he']
        exact ih _ _ _ _ _ (by omega) (by omega) (fun h2 => by omega)
          (by linear_combination heq) hinv4
      · rw [if_neg he']
        exact ih _ _ _ _ _ (by omega) hxr (fun h2 => by omega)
          (by linear_combination heq) hinv4
    · rw [if_neg hyx]
      exact hinv

theorem circLoop_at_center_row (x y rI : ℤ) :
    ∀ (fuel : ℕ) (e xo yo : ℤ) (lbuf rbuf : List ℤ),
      1 ≤ yo → xo ≤ rI →
      (circLoop x y rI e xo yo lbuf rbuf fuel).1.getD rI.toNat 0 =
        lbuf.getD rI.toNat 0 ∧
      (circLoop x y rI e xo yo lbuf rbuf fuel).2.getD rI.toNat 0 =
        rbuf.getD rI.toNat 0 := by
  intro fuel
  induction fuel with
  | zero => intro e xo yo lbuf rbuf h1 hxr; exact ⟨rfl, rfl⟩
  | succ f ih =>
    intro e xo yo lbuf rbuf h1 hxr
    simp only [circLoop]
    by_cases hyx : yo ≤ xo
    · rw [if_pos hyx]
      have hA : (y + yo - (y - rI)).toNat ≠ rI.toNat := by omega
      have hB : (y - yo - (y - rI)).toNat ≠ rI.toNat := by omega
      have hC : (y + xo - (y - rI)).toNat ≠ rI.toNat := by omega
      have hD : (y - xo - (y - rI)).toNat ≠ rI.toNat := by omega
      have hsetl : ((((lbuf.set (y + yo - (y - rI)).toNat (x - xo)).set
          (y - yo - (y - rI)).toNat (x - xo)).set
          (y + xo - (y - rI)).toNat (x - yo)).set
          (y - xo - (y - rI)).toNat (x - yo)).getD rI.toNat 0 =
          lbuf.getD rI.toNat 0 := by
        rw [getD_set_ne _ _ _ hD, getD_set_ne _ _ _ hC,
          getD_set_ne _ _ _ hB, getD_set_ne _ _ _ hA]
      have hsetr : ((((rbuf.set (y + yo - (y - rI)).toNat (x + xo)).set
          (y - yo - (y - rI)).toNat (x + xo)).set
          (y + xo - (y - rI)).toNat (x + yo)).set
          (y - xo - (y - rI)).toNat (x + yo)).getD rI.toNat 0 =
          rbuf.getD rI.toNat 0 := by
        rw [getD_set_ne _ _ _ hD, getD_set_ne _ _ _ hC,
          getD_set_ne _ _ _ hB, getD_set_ne _ _ _ hA]
      by_cases he' : 0 ≤ e + 2 * yo + 1
      · rw [if_pos he']
        obtain ⟨hl, hr⟩ := ih (e + 2 * yo + 1 - (2 * xo - 1)) (xo - 1) (yo + 1)
          _ _ (by omega) (by omega)
        rw [hl, hr, hsetl, hsetr]
        exact ⟨rfl, rfl⟩
      · rw [if_neg he']
        obtain ⟨hl, hr⟩ := ih (e + 2 * yo + 1) xo (yo + 1) _ _ (by omega) hxr
        rw [hl, hr, hsetl, hsetr]
        exact ⟨rfl, rfl⟩
    · rw [if_neg hyx]
      exact ⟨rfl, rfl⟩

theorem circ_bufs_center (x y : ℤ) (r : ℕ) (hr : 1 ≤ r) :
    (circLoop x y (r : ℤ) (-(r : ℤ)) (r : ℤ) 0
      (List.replicate (2 * r + 1) 0) (List.replicate (2 * r + 1) 0)
      (r + 1)).1.getD r 0 = x - r ∧
    (circLoop x y (r : ℤ) (-(r : ℤ)) (r : ℤ) 0
      (List.replicate (2 * r + 1) 0) (List.replicate (2 * r + 1) 0)
      (r + 1)).2.getD r 0 = x + r := by
  show (circLoop x y (r : ℤ) (-(r : ℤ)) (r : ℤ) 0 _ _ (r + 1)).1.getD r 0 = _ ∧ _
  rw [show r + 1 = Nat.succ r from rfl]
  simp only [circLoop]
  rw [if_pos (by positivity : (0 : ℤ) ≤ (r : ℤ))]
  have hA : (y + 0 - (y - (r : ℤ))).toNat = r := by omega
  have hC : (y + (r : ℤ) - (y - (r : ℤ))).toNat = 2 * r := by omega
  have hD : (y - (r : ℤ) - (y - (r : ℤ))).toNat = 0 := by omega
  have hlget : (((((List.replicate (2 * r + 1) (0 : ℤ)).set
      (y + 0 - (y - (r : ℤ))).toNat (x - r)).set
      (y - 0 - (y - (r : ℤ))).toNat (x - r)).set
      (y + (r : ℤ) - (y - (r : ℤ))).toNat (x - 0)).set
      (y - (r : ℤ) - (y - (r : ℤ))).toNat (x - 0)).getD r 0 = x - r := by
    rw [getD_set_ne _ _ _ (by omega), getD_set_ne _ _ _ (by omega)]
    rw [show y - 0 - (y - (r : ℤ)) = y + 0 - (y - (r : ℤ)) from by ring, hA]
    have hlen2 : r < ((List.replicate (2 * r + 1) (0 : ℤ)).set r (x - r)).length := by
      simp only [List.length_set, List.length_replicate]; omega
    rw [getD_set_self _ _ _ _ hlen2]
  have hrget : (((((List.replicate (2 * r + 1) (0 : ℤ)).set
      (y + 0 - (y - (r : ℤ))).toNat (x + r)).set
      (y - 0 - (y - (r : ℤ))).toNat (x + r)).set
      (y + (r : ℤ) - (y - (r : ℤ))).toNat (x + 0)).set
      (y - (r : ℤ) - (y - (r : ℤ))).toNat (x + 0)).getD r 0 = x + r := by
    rw [getD_set_ne _ _ _ (by omega), getD_set_ne _ _ _ (by omega)]
    rw [show y - 0 - (y - (r : ℤ)) = y + 0 - (y - (r : ℤ)) from by ring, hA]
    have hlen2 : r < ((List.replicate (2 * r + 1) (0 : ℤ)).set r (x + r)).length := by
      simp only [List.length_set, List.length_replicate]; omega
    rw [getD_set_self _ _ _ _ hlen2]
  by_cases he' : 0 ≤ -(r : ℤ) + 2 * 0 + 1
  · rw [if_pos he']
    obtain ⟨hl, hr2⟩ := circLoop_at_center_row x y (r : ℤ) r
      (-(r : ℤ) + 2 * 0 + 1 - (2 * (r : ℤ) - 1)) ((r : ℤ) - 1) (0 + 1) _ _
      (by omega) (by omega)
    rw [show ((r : ℤ)).toNat = r from by omega] at hl hr2
    rw [hl, hr2, hlget, hrget]
    exact ⟨rfl, rfl⟩
  · rw [if_neg he']
    obtain ⟨hl, hr2⟩ := circLoop_at_center_row x y (r : ℤ) r
      (-(r : ℤ) + 2 * 0 + 1) (r : ℤ) (0 + 1) _ _ (by omega) (by omega)
    rw [show ((r : ℤ)).toNat = r from by omega] at hl hr2
    rw [hl, hr2, hlget, hrget]
    exact ⟨rfl, rfl⟩

/-! ### Claim C4: footprint of the solid circle -/

/-- Claim C4 as stated is false: with radius `1` at `(5, 5)` and fully
opaque red on black, the axis-aligned points `(cx + r, cy) = (6, 5)` and
`(cx, cy - r) = (5, 4)` keep their background color — the scanline fill
is exclusive on the right and the last row (index `2r`) is never
emitted, so those points are not written although the claim includes
them in the written set. -/
theorem claim_C4_counterexample :
    ((Canvas.new 20 20).draw_circle_solid 5 5 1 ⟨255, 0, 0, 255⟩).buffer.getD
        (5 * 20 + 6) black = black ∧
    ((Canvas.new 20 20).draw_circle_solid 5 5 1 ⟨255, 0, 0, 255⟩).buffer.getD
        (4 * 20 + 5) black = black ∧
    (⟨255, 0, 0⟩ : RGB) ≠ black := by
  have heval : (Canvas.new 20 20).draw_circle_solid 5 5 1 ⟨255, 0, 0, 255⟩ =
      fillRowsAux [5, 4, 5] [5, 6, 5] 0 4 ⟨255, 0, 0, 255⟩
        (Canvas.new 20 20) 0 2 := rfl
  rw [heval]
  refine ⟨?_, ?_, by decide⟩
  · have hf := fillRowsAux_frame [5, 4, 5] [5, 6, 5] 0 4 ⟨255, 0, 0, 255⟩
      2 0 (Canvas.new 20 20) 6 5 (by decide) (by decide)
      (fun k hk0 hk1 hcon => by
        interval_cases k
        · exact absurd hcon.1 (by decide)
        · exact absurd hcon.2.2 (by norm_num))
    rw [show (5 : ℕ) * (Canvas.new 20 20).width + 6 = 5 * 20 + 6 from rfl] at hf
    rw [hf]
    exact getD_replicate_of_lt _ _ (by omega)
  · have hf := fillRowsAux_frame [5, 4, 5] [5, 6, 5] 0 4 ⟨255, 0, 0, 255⟩
      2 0 (Canvas.new 20 20) 5 4 (by decide) (by decide)
      (fun k hk0 hk1 hcon => by
        interval_cases k
        · exact absurd hcon.2.2 (by norm_num)
        · exact absurd hcon.1 (by decide))
    rw [show (4 : ℕ) * (Canvas.new 20 20).width + 5 = 4 * 20 + 5 from rfl] at hf
    rw [hf]
    exact getD_replicate_of_lt _ _ (by omega)

/-- Claim C4 amended: for every center `(x, y)` and radius `r > 0`,
`draw_circle_solid` writes no pixel whose Euclidean distance from the
center exceeds `r + 1` (every such in-bounds pixel keeps its previous
value, for any color), and with a fully opaque color it does write the
axis-aligned point `(x - r, y)` (storing exactly the color) whenever
that point is in bounds.  Of the four axis-aligned points of the claim
only `(x - r, y)` is guaranteed: the half-open scanline fill excludes
`(x + r, y)` and `(x, y + r)` always and `(x, y - r)` for `r = 1`. -/
theorem claim_C4_amended (c : Canvas) (x y : ℤ) (r : ℕ) (color : RGBA)
    (hlen : c.buffer.length = c.width * c.height) (hr : 0 < r) :
    (∀ px py : ℕ, px < c.width → py < c.height →
      ((r : ℤ) + 1) ^ 2 < ((px : ℤ) - x) ^ 2 + ((py : ℤ) - y) ^ 2 →
      (c.draw_circle_solid x y r color).buffer.getD (py * c.width + px) black =
        c.buffer.getD (py * c.width + px) black) ∧
    (color.a = 255 → 0 ≤ x - r → x - r < (c.width : ℤ) → 0 ≤ y →
      y < (c.height : ℤ) →
      (c.draw_circle_solid x y r color).buffer.getD
        (y.toNat * c.width + (x - r).toNat) black =
        (⟨color.r, color.g, color.b⟩ : RGB)) := by
  have hne : ¬(r = 0) := by omega
  have hunf : c.draw_circle_solid x y r color =
      fillRowsAux
        (circLoop x y (r : ℤ) (-(r : ℤ)) (r : ℤ) 0
          (List.replicate (2 * r + 1) 0) (List.replicate (2 * r + 1) 0) (r + 1)).1
        (circLoop x y (r : ℤ) (-(r : ℤ)) (r : ℤ) 0
          (List.replicate (2 * r + 1) 0) (List.replicate (2 * r + 1) 0) (r + 1)).2
        0 (y - (r : ℤ)) color c 0 (2 * r) := by
    simp only [Canvas.draw_circle_solid, if_neg hne]
  have hinv0 : PairInv x (r : ℤ)
      (List.replicate (2 * r + 1) 0) (List.replicate (2 * r + 1) 0) := by
    refine ⟨rfl, ?_⟩
    intro k hk
    rw [List.length_replicate] at hk
    exact Or.inl ⟨getD_replicate_of_lt _ _ hk, getD_replicate_of_lt _ _ hk⟩
  have hPair := circLoop_inv x y (r : ℤ) (r + 1) (-(r : ℤ)) (r : ℤ) 0
    (List.replicate (2 * r + 1) 0) (List.replicate (2 * r + 1) 0)
    le_rfl le_rfl (fun _ => by omega) (by ring) hinv0
  have hBlen := circLoop_length x y (r : ℤ) (r + 1) (-(r : ℤ)) (r : ℤ) 0
    (List.replicate (2 * r + 1) 0) (List.replicate (2 * r + 1) 0)
  constructor
  · intro px py hpx hpy hfar
    rw [hunf]
    apply fillRowsAux_frame _ _ _ _ color (2 * r) 0 c px py hpx hpy
    intro k hk0 hk1 hcon
    obtain ⟨hrow, hlo, hhi⟩ := hcon
    have hklen : k < (circLoop x y (r : ℤ) (-(r : ℤ)) (r : ℤ) 0
        (List.replicate (2 * r + 1) 0) (List.replicate (2 * r + 1) 0) (r + 1)).1.length := by
      rw [hBlen.1, List.length_replicate]
      omega
    obtain hz | ⟨cc, hcc0, hlv, hrv, hbnd⟩ := hPair.2 k hklen
    · rw [hz.1] at hlo
      rw [hz.2] at hhi
      omega
    · rw [hlv] at hlo
      rw [hrv] at hhi
      have hsq : ((px : ℤ) - x) ^ 2 ≤ cc ^ 2 := sq_le_sq' (by omega) (by omega)
      have hrow2 : ((py : ℤ) - y) ^ 2 = ((k : ℤ) - (r : ℤ)) ^ 2 := by
        rw [show (py : ℤ) - y = (k : ℤ) - (r : ℤ) from by omega]
      have hexp : ((r : ℤ) + 1) ^ 2 = (r : ℤ) ^ 2 + 2 * (r : ℤ) + 1 := by ring
      have hrpos : (0 : ℤ) ≤ (r : ℤ) := by positivity
      rw [hrow2, hexp] at hfar
      linarith
  · intro ha hx0 hxw hy0 hyh
    rw [hunf]
    obtain ⟨hlC, hrC⟩ := circ_bufs_center x y r (by omega)
    apply fillRowsAux_write _ _ _ _ color ha (2 * r) 0 c ((x - r).toNat)
      (y.toNat) r hlen (by omega) (by omega) (by omega) (by omega)
      (by omega)
    · rw [hlC]; omega
    · rw [hrC]; omega

theorem claim_C4_amended_witness :
    ((Canvas.new 20 20).draw_circle_solid 5 5 2 ⟨255, 0, 0, 255⟩).buffer.getD
      (5 * 20 + 3) black = (⟨255, 0, 0⟩ : RGB) ∧
    ((Canvas.new 20 20).draw_circle_solid 5 5 2 ⟨255, 0, 0, 255⟩).buffer.getD
      (0 * 20 + 0) black = (Canvas.new 20 20).buffer.getD (0 * 20 + 0) black := by
  have h := claim_C4_amended (Canvas.new 20 20) 5 5 2 ⟨255, 0, 0, 255⟩
    (by simp [Canvas.new]) (by omega)
  exact ⟨h.2 rfl (by norm_num) (by norm_num [Canvas.new]) (by norm_num)
      (by norm_num [Canvas.new]),
    h.1 0 0 (by norm_num [Canvas.new]) (by norm_num [Canvas.new]) (by norm_num)⟩

/-! ### Claim C8: the packed 32-bit export -/

theorem mul_two_pow_lor_eq_add :
    ∀ (k x b : ℕ), b < 2 ^ k → (x * 2 ^ k) ||| b = x * 2 ^ k + b := by
  intro k
  induction k with
  | zero =>
    intro x b hb
    interval_cases b
    simp
  | succ j ih =>
    intro x b hb
    have hp : 2 ^ (j + 1) = 2 * 2 ^ j := by ring
    have hb2 : b / 2 < 2 ^ j := by omega
    have hx : x * 2 ^ (j + 1) = Nat.bit false (x * 2 ^ j) := by
      simp only [Nat.bit, cond_false]
      ring
    have hbb : Nat.bit (decide (b % 2 = 1)) (b / 2) = b := by
      rw [Nat.bit_val]
      rcases Nat.mod_two_eq_zero_or_one b with h | h <;> rw [h] <;> simp <;> omega
    calc x * 2 ^ (j + 1) ||| b
        = Nat.bit false (x * 2 ^ j) ||| Nat.bit (decide (b % 2 = 1)) (b / 2) := by
          rw [hx, hbb]
      _ = Nat.bit (false || decide (b % 2 = 1)) ((x * 2 ^ j) ||| (b / 2)) :=
          Nat.lor_bit false (x * 2 ^ j) (decide (b % 2 = 1)) (b / 2)
      _ = Nat.bit (decide (b % 2 = 1)) (x * 2 ^ j + b / 2) := by
          rw [Bool.false_or, ih x (b / 2) hb2]
      _ = x * 2 ^ (j + 1) + b := by
          rw [Nat.bit_val]
          have hq : x * 2 ^ (j + 1) = 2 * (x * 2 ^ j) := by rw [hp]; ring
          rcases Nat.mod_two_eq_zero_or_one b with h | h <;> rw [h] <;> simp <;>
            omega

theorem u32_pack_eq (r g b : Fin 256) :
    (r.val <<< 16 ||| g.val <<< 8 ||| b.val) =
      r.val * 65536 + g.val * 256 + b.val := by
  have hr := r.isLt
  have hg := g.isLt
  have hb := b.isLt
  rw [Nat.shiftLeft_eq, Nat.shiftLeft_eq]
  have h1 : r.val * 2 ^ 16 ||| g.val * 2 ^ 8 = r.val * 2 ^ 16 + g.val * 2 ^ 8 :=
    mul_two_pow_lor_eq_add 16 r.val (g.val * 2 ^ 8) (by omega)
  rw [h1]
  have h2 : r.val * 2 ^ 16 + g.val * 2 ^ 8 = (r.val * 2 ^ 8 + g.val) * 2 ^ 8 := by
    ring
  rw [h2, mul_two_pow_lor_eq_add 8 (r.val * 2 ^ 8 + g.val) b.val (by omega)]
  ring

theorem getD_map_u32 (c : Canvas) (i : ℕ) (h : i < c.buffer.length) :
    c.buffer_u32.getD i 0 =
      (c.buffer.getD i black).r.val <<< 16 |||
      (c.buffer.getD i black).g.val <<< 8 ||| (c.buffer.getD i black).b.val := by
  unfold Canvas.buffer_u32
  rw [List.getD, List.getD, List.get?_eq_getElem?, List.get?_eq_getElem?,
    List.getElem?_map, List.getElem?_eq_getElem h]
  rfl

/-- Claim C8: `buffer_u32` produces one packed word per pixel in buffer
order; each word is `0x00RRGGBB` (below `2^24`, top byte zero), and
extracting bits 16–23, 8–15 and 0–7 recovers the red, green and blue
channels of the original buffer exactly. -/
theorem claim_C8_buffer_u32_roundtrip (c : Canvas) :
    c.buffer_u32.length = c.buffer.length ∧
    ∀ i : ℕ, i < c.buffer.length →
      c.buffer_u32.getD i 0 < 2 ^ 24 ∧
      c.buffer_u32.getD i 0 >>> 16 % 256 = (c.buffer.getD i black).r.val ∧
      c.buffer_u32.getD i 0 >>> 8 % 256 = (c.buffer.getD i black).g.val ∧
      c.buffer_u32.getD i 0 % 256 = (c.buffer.getD i black).b.val := by
  refine ⟨by simp [Canvas.buffer_u32], ?_⟩
  intro i hi
  rw [getD_map_u32 c i hi, u32_pack_eq]
  have hr := (c.buffer.getD i black).r.isLt
  have hg := (c.buffer.getD i black).g.isLt
  have hb := (c.buffer.getD i black).b.isLt
  rw [Nat.shiftRight_eq_div_pow, Nat.shiftRight_eq_div_pow]
  refine ⟨by omega, by omega, by omega, by omega⟩

theorem claim_C8_witness :
    (Canvas.new 2 1).buffer_u32.length = (Canvas.new 2 1).buffer.length ∧
    (Canvas.new 2 1).buffer_u32.getD 0 0 < 2 ^ 24 := by
  have h := claim_C8_buffer_u32_roundtrip (Canvas.new 2 1)
  exact ⟨h.1, (h.2 0 (by simp [Canvas.new])).1⟩
